import Mathlib

/-!
Shallow embedding of the deno-postcss source-position / terminal-highlight
layer.

* `src/src/terminal-highlight.js` is embedded in the `Highlight` section:
  tokens are `(type, value)` pairs, the chalk color primitives are modelled
  as pure wrappers that emit explicit control segments, and the render loop
  is embedded as structural recursion over the token list delivered by the
  stream (the classifier's lookahead is separately shown, on a stream model
  with pushback, to leave the stream's deliverable token sequence unchanged,
  which justifies the list recursion).
* `src/unnamed/part_000` (the `Input` class) is embedded in the `Source`
  section.  Its collaborators that are not part of `src/` — the `path`
  module, the source-map consumer, `PreviousMap` and `CssSyntaxError` —
  are modelled explicitly, each with a doc comment saying what it stands
  for.

Text is modelled as `List Char` where character-level manipulation matters.
-/

namespace DenoPostcss

/-! ### Tokens

A token of the tokenizer is a `[type, value, ...]` array; the highlighter
only reads `token[0]` (type) and `token[1]` (value).  The token stream
contract (tokenizer not under `src/`): concatenating the values in stream
order reproduces the input text exactly. -/

/-- A lexical token: `(type, value)`.  The value is the exact substring. -/
abbrev Token := String × List Char

/-- Concatenation of the token values in stream order.  By the token-stream
losslessness contract this is the input text. -/
def concatValues (ts : List Token) : List Char :=
  match ts with
  | [] => []
  | t :: rest => t.2 ++ concatValues rest

/-! ### The chalk color table (`HIGHLIGHT_THEME`) -/

/-- The chalk color functions used by `HIGHLIGHT_THEME`. -/
inductive ChalkColor
  | cyan
  | gray
  | green
  | yellow
  | magenta
deriving DecidableEq, Repr

/-- `HIGHLIGHT_THEME` from `terminal-highlight.js`: the token-category →
color table.  A key absent from the JS object is `none`. -/
def HIGHLIGHT_THEME (t : String) : Option ChalkColor :=
  if t = "brackets" then some .cyan
  else if t = "at-word" then some .cyan
  else if t = "comment" then some .gray
  else if t = "string" then some .green
  else if t = "class" then some .yellow
  else if t = "call" then some .cyan
  else if t = "hash" then some .magenta
  else if t = "(" then some .cyan
  else if t = ")" then some .cyan
  else if t = "\x7b" then some .yellow
  else if t = "\x7d" then some .yellow
  else if t = "[" then some .yellow
  else if t = "]" then some .yellow
  else if t = ":" then some .yellow
  else if t = ";" then some .yellow
  else none

/-! ### The classifier (`getTokenType`) -/

/-- `getTokenType([type, value], processor)` from `terminal-highlight.js`,
over the list of tokens still to be delivered by the stream (`rest`):

```js
if (type === "word") {
  if (value[0] === ".") return "class";
  if (value[0] === "#") return "hash";
}
if (!processor.endOfFile()) {
  let next = processor.nextToken();
  processor.back(next);
  if (next[0] === "brackets" || next[0] === "(") return "call";
}
return type;
```
-/
def getTokenType (t : Token) (rest : List Token) : String :=
  if t.1 = "word" ∧ t.2.head? = some '.' then "class"
  else if t.1 = "word" ∧ t.2.head? = some '#' then "hash"
  else
    match rest with
    | next :: _ => if next.1 = "brackets" ∨ next.1 = "(" then "call" else t.1
    | [] => t.1

/-! ### The token stream with pushback

The tokenizer itself is not under `src/`.  Modelled from the spec:
`nextToken()` advances one token, `back(token)` returns exactly one token to
be redelivered by the next `nextToken()` call (one level of pushback), and
`endOfFile()` reports exhaustion.  The pushback slot is an `Option`. -/

/-- Stream state: the one-slot pushback buffer and the tokens not yet
delivered from the underlying text. -/
structure TokenStream where
  buffer : List Token
  rest : List Token
deriving DecidableEq, Repr

/-- `endOfFile()`: true when the pushback buffer and the remaining tokens
are both exhausted. -/
def TokenStream.endOfFile (s : TokenStream) : Bool :=
  s.buffer.isEmpty && s.rest.isEmpty

/-- `nextToken()`: redeliver the pushed-back token if any, else advance. -/
def TokenStream.nextToken (s : TokenStream) : Option (Token × TokenStream) :=
  match s.buffer with
  | b :: bs => some (b, ⟨bs, s.rest⟩)
  | [] =>
    match s.rest with
    | t :: ts => some (t, ⟨[], ts⟩)
    | [] => none

/-- `back(token)`: push one token back for redelivery. -/
def TokenStream.back (s : TokenStream) (t : Token) : TokenStream :=
  ⟨t :: s.buffer, s.rest⟩

/-- The sequence of tokens the stream will deliver from this state on. -/
def TokenStream.toList (s : TokenStream) : List Token :=
  s.buffer ++ s.rest

/-- `getTokenType` run against the stateful stream, mirroring the calls the
JS function makes (`endOfFile`, `nextToken`, `back`); returns the category
together with the stream state it leaves behind. -/
def getTokenTypeSt (t : Token) (s : TokenStream) : String × TokenStream :=
  if t.1 = "word" ∧ t.2.head? = some '.' then ("class", s)
  else if t.1 = "word" ∧ t.2.head? = some '#' then ("hash", s)
  else
    if s.endOfFile then (t.1, s)
    else
      match s.nextToken with
      | some (next, s1) =>
        let s2 := s1.back next
        (if next.1 = "brackets" ∨ next.1 = "(" then "call" else t.1, s2)
      | none => (t.1, s)

/-! ### The renderer (`terminalHighlight`)

Chalk's color functions are external pure string functions that wrap their
argument in a color-start / color-reset control-sequence pair.  The output
is modelled as a list of segments, separating the literal text from the
injected control sequences, so that "stripping color-control sequences"
is exact. -/

/-- One piece of rendered output: literal text, or a color-control
sequence (start or reset of a chalk color). -/
inductive Seg
  | text (s : List Char)
  | ctrl (c : ChalkColor) (start : Bool)
deriving DecidableEq, Repr

/-- Application of one chalk color function to a string: color-start,
the text, color-reset. -/
def colorize (c : ChalkColor) (s : List Char) : List Seg :=
  [.ctrl c true, .text s, .ctrl c false]

/-- Prepend a character to the first piece of a split. -/
def consHead (c : Char) : List (List Char) → List (List Char)
  | [] => [[c]]
  | l :: ls => (c :: l) :: ls

/-- `String.prototype.split(/\r?\n/)`: split at each `"\r\n"` or `"\n"`
(a lone `"\r"` is not a separator). -/
def splitLines : List Char → List (List Char)
  | [] => [[]]
  | [c] => if c = '\n' then [[], []] else [[c]]
  | c :: d :: rest =>
    if c = '\n' then [] :: splitLines (d :: rest)
    else if c = '\r' ∧ d = '\n' then [] :: splitLines rest
    else consHead c (splitLines (d :: rest))

/-- `Array.prototype.join("\n")` over the colorized pieces. -/
def joinSegs : List (List Seg) → List Seg
  | [] => []
  | [l] => l
  | l :: ls => l ++ Seg.text ['\n'] :: joinSegs ls

/-- One iteration's contribution to `result`:
`token[1].split(/\r?\n/).map((i) => color(i)).join("\n")` when the theme
has a color for the token's category, the raw value otherwise. -/
def renderValue (c? : Option ChalkColor) (v : List Char) : List Seg :=
  match c? with
  | some c => joinSegs ((splitLines v).map (colorize c))
  | none => [.text v]

/-- The `while (!processor.endOfFile())` loop of `terminalHighlight(css)`,
over the token list the stream delivers: each token is classified with one
token of lookahead (`getTokenTypeSt_toList` shows the lookahead leaves the
stream's deliverable sequence unchanged, so the remaining list is exactly
`rest`) and rendered. -/
def terminalHighlight : List Token → List Seg
  | [] => []
  | t :: rest =>
    renderValue (HIGHLIGHT_THEME (getTokenType t rest)) t.2 ++ terminalHighlight rest

/-- Remove every color-control sequence, keeping the literal text. -/
def strip : List Seg → List Char
  | [] => []
  | .text s :: rest => s ++ strip rest
  | .ctrl _ _ :: rest => strip rest

/-- `"\r\n"` occurs somewhere in the text. -/
def hasCRLF : List Char → Bool
  | [] => false
  | [_] => false
  | c :: d :: rest => (c = '\r' ∧ d = '\n' : Bool) || hasCRLF (d :: rest)

/-- Every token whose category is colored by the theme has a CRLF-free
value (uncolored tokens are appended verbatim, so their line terminators
are never touched). -/
def noColoredCRLF : List Token → Bool
  | [] => true
  | t :: rest =>
    ((HIGHLIGHT_THEME (getTokenType t rest)).isNone || !hasCRLF t.2)
      && noColoredCRLF rest

/-! ### The `path` module (external collaborator)

POSIX-style path classification and resolution, modelling the `path`
dependency used by `input.js` (`path.isAbsolute`, `path.resolve`).
`resolve` takes the rightmost absolute segment (falling back to the
current working directory, which is always absolute) and normalizes
`.`/`..`/empty segments away. -/

/-- A character of the regex class `\w`: ASCII letter, digit or `_`. -/
def isWordChar (c : Char) : Bool := c.isAlphanum || c = '_'

/-- Helper for the `/^\w+:\/\//` test: after at least one leading word
character, either `://` follows now or another word character continues
the scheme. -/
def isUrlTail : List Char → Bool
  | ':' :: '/' :: '/' :: _ => true
  | c :: rest => isWordChar c && isUrlTail rest
  | [] => false

/-- The test `/^\w+:\/\//.test(s)`: one or more word characters followed
by `://`, anchored at the start. -/
def isUrl (l : List Char) : Bool :=
  match l with
  | c :: rest => isWordChar c && isUrlTail rest
  | [] => false

/-- `isUrl` over `String`. -/
def isUrlStr (s : String) : Bool := isUrl s.data

/-- `path.isAbsolute` (POSIX): the path starts with `/`. -/
def isAbsolutePath (p : List Char) : Bool := p.head? = some '/'

/-- `isAbsolutePath` over `String`. -/
def isAbsolutePathS (s : String) : Bool := isAbsolutePath s.data

/-- Split a path at every `/`. -/
def splitOnSlash : List Char → List (List Char)
  | [] => [[]]
  | c :: rest =>
    if c = '/' then [] :: splitOnSlash rest
    else consHead c (splitOnSlash rest)

/-- Rejoin path segments with `/`. -/
def joinSlash : List (List Char) → List Char
  | [] => []
  | [l] => l
  | l :: ls => l ++ '/' :: joinSlash ls

/-- Normalization step: drop empty and `.` segments, let `..` pop the
last kept segment (at the root it pops nothing), keep the rest. -/
def normStep (stack : List (List Char)) (seg : List Char) : List (List Char) :=
  if seg = [] ∨ seg = ['.'] then stack
  else if seg = ['.', '.'] then stack.dropLast
  else stack ++ [seg]

/-- Process all segments of a path through `normStep`. -/
def normStack (segs : List (List Char)) : List (List Char) :=
  segs.foldl normStep []

/-- Normalize an absolute path: `/` followed by the kept segments. -/
def normalizeAbs (p : List Char) : List Char :=
  '/' :: joinSlash (normStack (splitOnSlash p))

/-- `path.resolve(p)` with one argument: resolve against the current
working directory `cwd` (itself absolute) unless `p` is absolute. -/
def pathResolve1 (cwd p : List Char) : List Char :=
  if isAbsolutePath p then normalizeAbs p
  else normalizeAbs (cwd ++ '/' :: p)

/-- `path.resolve(base, p)`: the rightmost absolute segment wins; if
neither is absolute, resolve against the current working directory. -/
def pathResolve2 (cwd base p : List Char) : List Char :=
  if isAbsolutePath p then normalizeAbs p
  else if isAbsolutePath base then normalizeAbs (base ++ '/' :: p)
  else normalizeAbs (cwd ++ '/' :: base ++ '/' :: p)

/-- A path segment kept by normalization: non-empty, not a dot segment,
and slash-free. -/
def cleanSeg (x : List Char) : Prop :=
  x ≠ [] ∧ x ≠ ['.'] ∧ x ≠ ['.', '.'] ∧ '/' ∉ x

/-- `pathResolve1` over `String`. -/
def pathResolve1S (cwd p : String) : String := ⟨pathResolve1 cwd.data p.data⟩

/-- `pathResolve2` over `String`. -/
def pathResolve2S (cwd base p : String) : String :=
  ⟨pathResolve2 cwd.data base.data p.data⟩

/-! ### The source-map consumer (external collaborator) -/

/-- The answer of `consumer.originalPositionFor`: the original source name
(null when the position has no mapping — then line/column are meaningless)
and the original line/column. -/
structure OriginalPosition where
  source : Option String
  line : Nat
  column : Nat
deriving DecidableEq, Repr

/-- Modelled from the spec: the external map-consumer capability over
`{originalPositionFor, sourceContentFor, sourceRoot, file}`. -/
structure SourceMapConsumer where
  originalPositionFor : Nat × Nat → OriginalPosition
  sourceContentFor : String → Option String
  sourceRoot : Option String
  file : Option String

/-- Modelled from the spec: the `PreviousMap` link kept on a `Source`
(`previous-map.js` is not under `src/`); `input.js` reads its `consumer()`
and late-binds its `file`. -/
structure PreviousMap where
  consumer : SourceMapConsumer
  file : Option String

/-! ### The Source (`Input` of `input.js`) -/

/-- The `Input` instance state established by the constructor. -/
structure Input where
  css : String
  hasBOM : Bool
  file : Option String
  id : Option String
  map : Option PreviousMap

/-- The secondary location object assigned to the diagnostic after
construction (`{line, column, source}` plus `file` when present). -/
structure GeneratedPos where
  line : Nat
  column : Nat
  source : String
  file : Option String
deriving DecidableEq, Repr

/-- Modelled from the spec: a Diagnostic (`css-syntax-error.js` is not
under `src/`); the constructor stores its arguments
`(message, line, column, source, file, plugin)`.  Properties assigned to
the object afterwards (JS objects are string-keyed) are recorded in
`props` under the key used by the assignment. -/
structure CssSyntaxError where
  message : String
  line : Nat
  column : Nat
  source : Option String
  file : Option String
  plugin : Option String
  props : List (String × GeneratedPos)

/-- `this.mapResolve(file)` when the map link is known present:
URL candidates pass through, others resolve against
`consumer().sourceRoot || "."`. -/
def mapResolveCore (cwd : String) (consumer : SourceMapConsumer) (f : String) : String :=
  if isUrlStr f then f
  else
    let root :=
      match consumer.sourceRoot with
      | some r => if r = "" then "." else r
      | none => "."
    pathResolve2S cwd root f

/-- `mapResolve(file)` of `input.js` as called on an arbitrary `Input`:
the non-URL branch dereferences `this.map.consumer()`, so without a linked
map it throws (`none`); URL candidates never touch the map. -/
def Input.mapResolve (cwd : String) (inp : Input) (f : String) : Option String :=
  if isUrlStr f then some f
  else
    match inp.map with
    | some m => some (mapResolveCore cwd m.consumer f)
    | none => none

/-- The result object of a successful `origin` call.  `source` holds the
original text when the consumer can supply it (a truthy content string). -/
structure OriginResult where
  file : String
  line : Nat
  column : Nat
  source : Option String
deriving DecidableEq, Repr

/-- `origin(line, column)` of `input.js`; the JS `false` return is
modelled as `none`:

```js
if (!this.map) return false;
let consumer = this.map.consumer();
let from = consumer.originalPositionFor({ line, column });
if (!from.source) return false;
let result = { file: this.mapResolve(from.source), line: from.line, column: from.column };
let source = consumer.sourceContentFor(from.source);
if (source) result.source = source;
return result;
```
-/
def Input.origin (cwd : String) (inp : Input) (line column : Nat) : Option OriginResult :=
  match inp.map with
  | none => none
  | some m =>
    let pos := m.consumer.originalPositionFor (line, column)
    match pos.source with
    | none => none
    | some src =>
      let content :=
        match m.consumer.sourceContentFor src with
        | some s => if s = "" then none else some s
        | none => none
      some { file := mapResolveCore cwd m.consumer src,
             line := pos.line, column := pos.column,
             source := content }

/-- `error(message, line, column, opts)` of `input.js`: build the
diagnostic from the mapped original position when `origin` succeeds, else
from the raw position and this source's own text/file; then assign the
secondary location under the property name `"input"`
(`result.input = { line, column, source: this.css }`, with `file` added
when this source has one). -/
def Input.error (cwd : String) (inp : Input) (message : String)
    (line column : Nat) (plugin : Option String) : CssSyntaxError :=
  let base : CssSyntaxError :=
    match Input.origin cwd inp line column with
    | some og =>
      { message := message, line := og.line, column := og.column,
        source := og.source, file := some og.file, plugin := plugin,
        props := [] }
    | none =>
      { message := message, line := line, column := column,
        source := some inp.css, file := inp.file, plugin := plugin,
        props := [] }
  { base with
    props := [("input",
      { line := line, column := column, source := inp.css, file := inp.file })] }

/-! ### The constructor -/

/-- The BOM branch of the constructor: strip exactly one leading
`U+FEFF`/`U+FFFE` and record it. -/
def bomStrip (css : String) : String × Bool :=
  match css.data with
  | c :: rest =>
    if c = '\uFEFF' ∨ c = '\uFFFE' then (⟨rest⟩, true) else (css, false)
  | [] => (css, false)

/-- Decimal digits of `n`, most significant first, by fuelled division
(`natToDigitsAux fuel n` is exact whenever `n ≤ fuel`). -/
def natToDigitsAux : Nat → Nat → List Char
  | 0, _ => []
  | fuel + 1, n =>
    if n = 0 then [] else natToDigitsAux fuel (n / 10) ++ [Nat.digitChar (n % 10)]

/-- JS number-to-string conversion for the counter value (external runtime
primitive): the usual decimal numeral. -/
def jsNatToString (n : Nat) : String :=
  ⟨if n = 0 then ['0'] else natToDigitsAux n n⟩

/-- The synthetic id literal `"<input css " + sequence + ">"`. -/
def mkId (n : Nat) : String := "<input css " ++ jsNatToString n ++ ">"

/-- The `opts.from` branch of the constructor: a truthy `from` is stored
verbatim when it is a URL or an absolute path, else resolved against the
current working directory. -/
def resolveFrom (cwd : String) (fromOpt : Option String) : Option String :=
  match fromOpt with
  | some f =>
    if f = "" then none
    else if isUrlStr f || isAbsolutePathS f then some f
    else some (pathResolve1S cwd f)
  | none => none

/-- `this.file` after the map-linking step: when a previous map was found
and `file` is still unset and the map declares a truthy file of its own,
adopt it through `mapResolve`; otherwise keep the `from`-derived value. -/
def linkFile (cwd : String) (file0 : Option String)
    (found : Option SourceMapConsumer) : Option String :=
  match found with
  | some consumer =>
    match file0, consumer.file with
    | none, some mf =>
      if mf = "" then none else some (mapResolveCore cwd consumer mf)
    | _, _ => file0
  | none => file0

/-- The constructor of `Input` (with the module-level `sequence` counter
passed in and returned, modelling the process-wide mutable variable that
starts at 0).  `fromOpt` is `opts.from`; `found` is the outcome of
`new PreviousMap(this.css, opts)` — `previous-map.js` is not under `src/`,
and per the spec the attempt "may legitimately be empty", so the outcome
(a consumer when the map had text, else nothing) is a parameter.  JS
truthiness of `opts.from` and of the map's `file` is modelled by treating
the empty string as absent. -/
def mkInput (cwd : String) (css : String) (fromOpt : Option String)
    (found : Option SourceMapConsumer) (seq : Nat) : Input × Nat :=
  let sb := bomStrip css
  let file1 := linkFile cwd (resolveFrom cwd fromOpt) found
  let idSeq : Option String × Nat :=
    match file1 with
    | none => (some (mkId (seq + 1)), seq + 1)
    | some _ => (none, seq)
  let fromLabel :=
    match file1 with
    | some f => f
    | none => (idSeq.1).getD ""
  ({ css := sb.1, hasBOM := sb.2, file := file1, id := idSeq.1,
     map := found.map (fun c => { consumer := c, file := some fromLabel }) },
   idSeq.2)

/-- The `from` getter: `this.file || this.id`. -/
def Input.fromLabel (inp : Input) : String :=
  inp.file.getD (inp.id.getD "")

/-- Construct one `Input` per entry `(css, found)`, each with no `from`
option, threading the `sequence` counter. -/
def mkInputs (cwd : String) : List (String × Option SourceMapConsumer) → Nat → List Input × Nat
  | [], seq => ([], seq)
  | e :: rest, seq =>
    let r1 := mkInput cwd e.1 none e.2 seq
    let rs := mkInputs cwd rest r1.2
    (r1.1 :: rs.1, rs.2)

/-- The previous map carries no file of its own (absent or empty, both
falsy in JS): construction cannot derive `file` from it. -/
def noMapFile (found : Option SourceMapConsumer) : Prop :=
  ∀ c, found = some c → c.file = none ∨ c.file = some ""

/-! ### Fixtures for concrete evaluations -/

/-- A concrete consumer mapping generated (2,5) to `a.sass` 10:3 and
nothing else, with no stored source content. -/
def wConsumer : SourceMapConsumer where
  originalPositionFor := fun p =>
    if p = (2, 5) then ⟨some "a.sass", 10, 3⟩ else ⟨none, 0, 0⟩
  sourceContentFor := fun _ => none
  sourceRoot := none
  file := none

/-- A concrete `Input` linked to `wConsumer`. -/
def wInput : Input where
  css := "a\x7bcolor:red\x7d"
  hasBOM := false
  file := none
  id := some "<input css 1>"
  map := some ⟨wConsumer, none⟩

/-- A concrete `Input` with no linked map. -/
def cInput : Input where
  css := "a\x7b\x7d"
  hasBOM := false
  file := none
  id := some "<input css 1>"
  map := none

/-- `Array.prototype.join("\n")` at the text level: what the rendered
pieces of one token contribute once control sequences are stripped. -/
def joinNl : List (List Char) → List Char
  | [] => []
  | [l] => l
  | l :: ls => l ++ '\n' :: joinNl ls

/-! ## Renderer lemmas -/

theorem strip_append (a b : List Seg) : strip (a ++ b) = strip a ++ strip b := by
  induction a with
  | nil => rfl
  | cons s rest ih => cases s <;> simp [strip, ih]

theorem joinNl_consHead (c : Char) (ps : List (List Char)) :
    joinNl (consHead c ps) = c :: joinNl ps := by
  cases ps with
  | nil => rfl
  | cons l ls => cases ls <;> simp [consHead, joinNl]

theorem consHead_ne_nil (c : Char) (ps : List (List Char)) : consHead c ps ≠ [] := by
  cases ps <;> simp [consHead]

theorem splitLines_ne_nil (v : List Char) : splitLines v ≠ [] := by
  induction v using splitLines.induct with
  | case1 => simp [splitLines]
  | case2 => simp [splitLines]
  | case3 c hc => simp [splitLines, hc]
  | case4 d rest ih => simp [splitLines]
  | case5 c d rest hc hcd ih => simp [splitLines, hc, hcd]
  | case6 c d rest hc hcd ih => simp [splitLines, hc, hcd, consHead_ne_nil]

theorem joinNl_splitLines (v : List Char) (h : hasCRLF v = false) :
    joinNl (splitLines v) = v := by
  revert h
  induction v using splitLines.induct with
  | case1 => intro h; rfl
  | case2 => intro h; simp [splitLines, joinNl]
  | case3 c hc => intro h; simp [splitLines, hc, joinNl]
  | case4 d rest ih =>
    intro h
    have h' : hasCRLF (d :: rest) = false := by
      simp only [hasCRLF, Bool.or_eq_false_iff] at h
      exact h.2
    have hs := splitLines_ne_nil (d :: rest)
    rcases hsl : splitLines (d :: rest) with _ | ⟨l, ls⟩
    · exact absurd hsl hs
    · have := ih h'
      rw [hsl] at this
      simp [splitLines, joinNl, hsl, this]
  | case5 c d rest hc hcd ih =>
    intro h
    obtain ⟨rfl, rfl⟩ := hcd
    simp [hasCRLF] at h
  | case6 c d rest hc hcd ih =>
    intro h
    have h' : hasCRLF (d :: rest) = false := by
      simp only [hasCRLF, Bool.or_eq_false_iff] at h
      exact h.2
    have : splitLines (c :: d :: rest) = consHead c (splitLines (d :: rest)) := by
      simp [splitLines, hc, hcd]
    rw [this, joinNl_consHead]
    have hs := splitLines_ne_nil (d :: rest)
    rcases hsl : splitLines (d :: rest) with _ | ⟨l, ls⟩
    · exact absurd hsl hs
    · have hi := ih h'
      rw [hsl] at hi
      rw [hi]

theorem strip_joinSegs_colorize (c : ChalkColor) (ps : List (List Char)) :
    strip (joinSegs (ps.map (colorize c))) = joinNl ps := by
  induction ps with
  | nil => rfl
  | cons l ls ih =>
    cases ls with
    | nil => simp [joinSegs, colorize, strip, joinNl]
    | cons l2 ls2 =>
      simp only [List.map_cons, joinSegs, colorize] at ih ⊢
      simp [strip_append, strip, joinNl, ih]

theorem strip_renderValue (c? : Option ChalkColor) (v : List Char)
    (h : hasCRLF v = false) : strip (renderValue c? v) = v := by
  cases c? with
  | none => simp [renderValue, strip]
  | some c => simp [renderValue, strip_joinSegs_colorize, joinNl_splitLines v h]

/-- C1 (amended): stripping all color-control sequences from the rendered
output yields the concatenated token values — the input text, by the
stream's losslessness contract — with token order preserved, PROVIDED no
colored token's value contains `"\r\n"`.  (The renderer splits colored
values on `/\r?\n/` and rejoins with `"\n"`, so a CRLF inside a colored
token is emitted as a bare LF; uncolored tokens and lone `"\n"`/`"\r"`
terminators are reproduced exactly.) -/
theorem terminalHighlight_strip_exact (ts : List Token)
    (h : noColoredCRLF ts = true) :
    strip (terminalHighlight ts) = concatValues ts := by
  induction ts with
  | nil => rfl
  | cons t rest ih =>
    simp only [noColoredCRLF, Bool.and_eq_true, Bool.or_eq_true] at h
    obtain ⟨h1, h2⟩ := h
    simp only [terminalHighlight, concatValues, strip_append, ih h2]
    rcases hth : HIGHLIGHT_THEME (getTokenType t rest) with _ | c
    · simp [renderValue, strip]
    · rw [hth] at h1
      rcases h1 with h1 | h1
      · simp [Option.isNone] at h1
      · rw [strip_renderValue _ _ (by simpa using h1)]

/-- C1, claim as stated, is false: for the single comment token
`"/*\r\n*/"` (a lossless stream for the text `"/*\r\n*/"`), stripping the
color-control sequences from the rendered output does not reproduce the
text — the CRLF inside the colored comment comes back as `"\n"`. -/
theorem terminalHighlight_crlf_counterexample :
    strip (terminalHighlight [("comment", ['/', '*', '\r', '\n', '*', '/'])]) ≠
      concatValues [("comment", ['/', '*', '\r', '\n', '*', '/'])] := by
  decide

/-- Witness for `terminalHighlight_strip_exact` at a concrete token list
(a class selector, a call-inducing parenthesis, and a colored multi-line
comment with a bare LF). -/
theorem terminalHighlight_strip_exact_witness :
    noColoredCRLF
        [("word", ['.', 'f', 'o', 'o']), ("(", ['(']), (")", [')']),
         ("comment", ['/', '*', '\n', '*', '/'])] = true ∧
    strip (terminalHighlight
        [("word", ['.', 'f', 'o', 'o']), ("(", ['(']), (")", [')']),
         ("comment", ['/', '*', '\n', '*', '/'])]) =
      concatValues
        [("word", ['.', 'f', 'o', 'o']), ("(", ['(']), (")", [')']),
         ("comment", ['/', '*', '\n', '*', '/'])] :=
  ⟨by decide, terminalHighlight_strip_exact _ (by decide)⟩

/-- C2 (amended): a `word` token whose value starts with `"."` always
classifies as the class-selector category (`"class"`), regardless of the
following token — the classifier returns before the lookahead, so even an
immediately following `"("` does not turn it into `"call"`. -/
theorem getTokenType_dot_always_class (v : List Char) (rest : List Token)
    (h : v.head? = some '.') :
    getTokenType ("word", v) rest = "class" := by
  simp [getTokenType, h]

/-- C2, claim as stated, is false: the `".foo"` word token immediately
followed by an open parenthesis classifies as `"class"`, not `"call"`. -/
theorem getTokenType_dot_call_counterexample :
    getTokenType ("word", ['.', 'f', 'o', 'o']) [("(", ['('])] = "class" ∧
      getTokenType ("word", ['.', 'f', 'o', 'o']) [("(", ['('])] ≠ "call" := by
  decide

/-- Witness for `getTokenType_dot_always_class` at `".foo"` followed by
`"("`. -/
theorem getTokenType_dot_always_class_witness :
    (['.', 'f', 'o', 'o'] : List Char).head? = some '.' ∧
      getTokenType ("word", ['.', 'f', 'o', 'o']) [("(", ['('])] = "class" :=
  ⟨rfl, getTokenType_dot_always_class _ _ rfl⟩

/-- Delivering one token splits the deliverable sequence. -/
theorem nextToken_toList {s s' : TokenStream} {t : Token}
    (h : s.nextToken = some (t, s')) : s.toList = t :: s'.toList := by
  cases s with
  | mk buffer rest =>
    cases buffer with
    | cons b bs =>
      simp only [TokenStream.nextToken, Option.some.injEq, Prod.mk.injEq] at h
      obtain ⟨rfl, rfl⟩ := h
      rfl
    | nil =>
      cases rest with
      | nil => simp [TokenStream.nextToken] at h
      | cons r rs =>
        simp only [TokenStream.nextToken, Option.some.injEq, Prod.mk.injEq] at h
        obtain ⟨rfl, rfl⟩ := h
        rfl

/-- C9: classifying a token leaves the stream as it was — in every case
(lookahead performed or not, peeked token matched or not) the sequence of
tokens the stream will subsequently deliver is unchanged, so no token is
permanently consumed by a peek.  The lookahead itself is, by construction
of `getTokenTypeSt`, exactly one `nextToken` immediately followed by
`back` of that same token. -/
theorem getTokenTypeSt_frame (t : Token) (s : TokenStream) :
    ((getTokenTypeSt t s).2).toList = s.toList := by
  unfold getTokenTypeSt
  split
  · rfl
  split
  · rfl
  split
  · rfl
  rcases h : s.nextToken with _ | ⟨next, s1⟩
  · simp
  · simp only [nextToken_toList h]
    simp [TokenStream.back, TokenStream.toList]

/-- C5: if the input text's first character is one of the two recognized
byte-order-marker codepoints (`U+FEFF`, `U+FFFE`), construction strips
exactly one leading occurrence (a second leading marker is kept — the
stored text is exactly the tail) and sets `hasBOM`; otherwise `hasBOM` is
false and the stored text equals the input exactly. -/
theorem mkInput_bom (cwd css : String) (fromOpt : Option String)
    (found : Option SourceMapConsumer) (seq : Nat) :
    (∀ c rest, css.data = c :: rest → (c = '\uFEFF' ∨ c = '\uFFFE') →
      (mkInput cwd css fromOpt found seq).1.css.data = rest ∧
        (mkInput cwd css fromOpt found seq).1.hasBOM = true) ∧
    ((∀ c rest, css.data = c :: rest → ¬(c = '\uFEFF' ∨ c = '\uFFFE')) →
      (mkInput cwd css fromOpt found seq).1.css = css ∧
        (mkInput cwd css fromOpt found seq).1.hasBOM = false) := by
  have hcss : (mkInput cwd css fromOpt found seq).1.css = (bomStrip css).1 := rfl
  have hbom : (mkInput cwd css fromOpt found seq).1.hasBOM = (bomStrip css).2 := rfl
  constructor
  · intro c rest hdata hb
    have hs : bomStrip css = (⟨rest⟩, true) := by
      simp only [bomStrip, hdata, if_pos hb]
    rw [hcss, hbom, hs]
    exact ⟨rfl, rfl⟩
  · intro hno
    cases hd : css.data with
    | nil =>
      have hs : bomStrip css = (css, false) := by simp only [bomStrip, hd]
      rw [hcss, hbom, hs]
      exact ⟨rfl, rfl⟩
    | cons c rest =>
      have hs : bomStrip css = (css, false) := by
        simp only [bomStrip, hd, if_neg (hno c rest hd)]
      rw [hcss, hbom, hs]
      exact ⟨rfl, rfl⟩

/-- Witness for `mkInput_bom`: a text starting with two `U+FEFF` markers
loses exactly the first one. -/
theorem mkInput_bom_witness :
    ("\uFEFF\uFEFFa" : String).data = '\uFEFF' :: ("\uFEFFa" : String).data ∧
      ((mkInput "/" "\uFEFF\uFEFFa" none none 0).1.css.data =
          ("\uFEFFa" : String).data ∧
        (mkInput "/" "\uFEFF\uFEFFa" none none 0).1.hasBOM = true) :=
  ⟨rfl, (mkInput_bom "/" "\uFEFF\uFEFFa" none none 0).1 '\uFEFF'
    ("\uFEFFa" : String).data rfl (Or.inl rfl)⟩

/-- C7: `origin(line, column)` returns the `false` sentinel (`none`) for
every position when no map is linked — the map branch is never entered, so
no query is performed — and likewise returns the sentinel (rather than
raising) when the map query yields no original source for the position;
when the query names a source, an `OriginResult` is returned. -/
theorem origin_mapping_miss (cwd : String) (inp : Input) (line column : Nat) :
    (inp.map = none → Input.origin cwd inp line column = none) ∧
    (∀ m, inp.map = some m →
      ((m.consumer.originalPositionFor (line, column)).source = none →
        Input.origin cwd inp line column = none) ∧
      (∀ src, (m.consumer.originalPositionFor (line, column)).source = some src →
        ∃ r, Input.origin cwd inp line column = some r)) := by
  refine ⟨fun h => by simp [Input.origin, h],
    fun m hm => ⟨fun hs => ?_, fun src hs => ?_⟩⟩
  · simp [Input.origin, hm, hs]
  · refine Option.isSome_iff_exists.mp ?_
    simp [Input.origin, hm, hs]

/-- Witness for `origin_mapping_miss`: a mapless source answers `none`
everywhere; the mapped fixture answers `none` at an unmapped position and
a result at the mapped one. -/
theorem origin_mapping_miss_witness :
    Input.origin "/" cInput 3 7 = none ∧
      Input.origin "/" wInput 1 1 = none ∧
      (∃ r, Input.origin "/" wInput 2 5 = some r) :=
  ⟨(origin_mapping_miss "/" cInput 3 7).1 rfl,
   ((origin_mapping_miss "/" wInput 1 1).2 ⟨wConsumer, none⟩ rfl).1 rfl,
   ((origin_mapping_miss "/" wInput 2 5).2 ⟨wConsumer, none⟩ rfl).2 "a.sass" rfl⟩

/-- C10: on a source with no linked map, `mapResolve` fails (the non-URL
branch dereferences `this.map.consumer()` on `undefined`) instead of
returning a resolved path; only URL candidates are safe, passing through
unchanged without touching the map. -/
theorem mapResolve_no_map (cwd : String) (inp : Input) (c : String)
    (hmap : inp.map = none) :
    (isUrlStr c = false → Input.mapResolve cwd inp c = none) ∧
    (isUrlStr c = true → Input.mapResolve cwd inp c = some c) := by
  constructor <;> intro h <;> simp [Input.mapResolve, h, hmap]

/-- Witness for `mapResolve_no_map`: `"a.sass"` fails on the mapless
fixture, `"http://x/a.sass"` passes through. -/
theorem mapResolve_no_map_witness :
    Input.mapResolve "/" cInput "a.sass" = none ∧
      Input.mapResolve "/" cInput "http://x/a.sass" = some "http://x/a.sass" :=
  ⟨(mapResolve_no_map "/" cInput "a.sass" rfl).1 (by decide),
   (mapResolve_no_map "/" cInput "http://x/a.sass" rfl).2 (by decide)⟩

/-- C4 (amended): every diagnostic built by `error` carries its secondary
generated-CSS location under the property name `input` — not `generated` —
equal to `{line, column, source: rawText}` plus `file` when the source has
one; the published shape is thus
`{message, line, column, source, file?, plugin?, input: {line, column, source, file?}}`. -/
theorem error_input_field (cwd : String) (inp : Input) (message : String)
    (line column : Nat) (plugin : Option String) :
    (Input.error cwd inp message line column plugin).props.lookup "input" =
        some ⟨line, column, inp.css, inp.file⟩ ∧
      (Input.error cwd inp message line column plugin).props.lookup "generated" =
        none := by
  unfold Input.error
  cases Input.origin cwd inp line column <;> simp [List.lookup]

/-- C4, claim as stated, is false at a concrete call: the built diagnostic
has no property named `generated`; the secondary location sits under
`input`. -/
theorem error_generated_counterexample :
    (Input.error "/" cInput "boom" 1 2 none).props.lookup "generated" = none ∧
      (Input.error "/" cInput "boom" 1 2 none).props.lookup "input" =
        some ⟨1, 2, "a\x7b\x7d", none⟩ := by
  decide

/-- C3: with a linked map sending generated (2,5) to `a.sass` line 10
column 3, `origin(2,5)` returns a result whose file is the resolved
`"a.sass"` (what `this.mapResolve` yields) with line 10 and column 3, and
`error(msg, 2, 5)` builds its diagnostic from the original position 10:3
while the secondary (generated) location keeps line 2 and column 5. -/
theorem origin_error_mapped (cwd : String) (inp : Input) (m : PreviousMap)
    (msg : String) (plugin : Option String)
    (hmap : inp.map = some m)
    (hpos : m.consumer.originalPositionFor (2, 5) = ⟨some "a.sass", 10, 3⟩) :
    (∃ r, Input.origin cwd inp 2 5 = some r ∧
        r.file = mapResolveCore cwd m.consumer "a.sass" ∧
        Input.mapResolve cwd inp "a.sass" = some r.file ∧
        r.line = 10 ∧ r.column = 3) ∧
    ((Input.error cwd inp msg 2 5 plugin).line = 10 ∧
      (Input.error cwd inp msg 2 5 plugin).column = 3 ∧
      (Input.error cwd inp msg 2 5 plugin).props.lookup "input" =
        some ⟨2, 5, inp.css, inp.file⟩) := by
  have horig : Input.origin cwd inp 2 5 = some
      { file := mapResolveCore cwd m.consumer "a.sass", line := 10, column := 3,
        source :=
          match m.consumer.sourceContentFor "a.sass" with
          | some s => if s = "" then none else some s
          | none => none } := by
    simp [Input.origin, hmap, hpos]
  constructor
  · refine ⟨_, horig, rfl, ?_, rfl, rfl⟩
    have hurl : isUrlStr "a.sass" = false := by decide
    simp [Input.mapResolve, hmap, hurl]
  · unfold Input.error
    rw [horig]
    simp [List.lookup]

/-- Witness for `origin_error_mapped` on the concrete fixture. -/
theorem origin_error_mapped_witness :
    (∃ r, Input.origin "/" wInput 2 5 = some r ∧
        r.file = mapResolveCore "/" wConsumer "a.sass" ∧
        Input.mapResolve "/" wInput "a.sass" = some r.file ∧
        r.line = 10 ∧ r.column = 3) ∧
    ((Input.error "/" wInput "boom" 2 5 none).line = 10 ∧
      (Input.error "/" wInput "boom" 2 5 none).column = 3 ∧
      (Input.error "/" wInput "boom" 2 5 none).props.lookup "input" =
        some ⟨2, 5, wInput.css, wInput.file⟩) :=
  origin_error_mapped "/" wInput ⟨wConsumer, none⟩ "boom" none rfl rfl

/-! ## Path-normalization lemmas -/

theorem splitOnSlash_ne_nil (p : List Char) : splitOnSlash p ≠ [] := by
  induction p with
  | nil => simp [splitOnSlash]
  | cons c rest ih =>
    by_cases h : c = '/' <;> simp [splitOnSlash, h, consHead_ne_nil]

theorem mem_splitOnSlash_no_slash (p : List Char) :
    ∀ l ∈ splitOnSlash p, '/' ∉ l := by
  induction p with
  | nil =>
    intro l hl
    simp [splitOnSlash] at hl
    simp [hl]
  | cons c rest ih =>
    intro l hl
    by_cases h : c = '/'
    · subst h
      simp [splitOnSlash] at hl
      rcases hl with rfl | hl
      · simp
      · exact ih l hl
    · simp only [splitOnSlash, if_neg h] at hl
      rcases hsp : splitOnSlash rest with _ | ⟨x, xs⟩
      · exact absurd hsp (splitOnSlash_ne_nil rest)
      · rw [hsp] at hl
        simp only [consHead, List.mem_cons] at hl
        rcases hl with rfl | hl
        · intro hmem
          rcases List.mem_cons.mp hmem with hc | hc
          · exact h hc.symm
          · exact ih x (by rw [hsp]; exact List.mem_cons_self x xs) hc
        · exact ih l (by rw [hsp]; exact List.mem_cons_of_mem x hl)

theorem splitOnSlash_no_slash_eq (x : List Char) (hx : '/' ∉ x) :
    splitOnSlash x = [x] := by
  induction x with
  | nil => rfl
  | cons c xs ih =>
    have hc : c ≠ '/' := fun h => hx (by simp [h])
    rw [splitOnSlash, if_neg hc, ih (fun h => hx (List.mem_cons_of_mem _ h))]
    rfl

theorem splitOnSlash_append_slash (x l : List Char) (hx : '/' ∉ x) :
    splitOnSlash (x ++ '/' :: l) = x :: splitOnSlash l := by
  induction x with
  | nil => simp [splitOnSlash]
  | cons c xs ih =>
    have hc : c ≠ '/' := fun h => hx (by simp [h])
    rw [List.cons_append, splitOnSlash, if_neg hc,
      ih (fun h => hx (List.mem_cons_of_mem _ h))]
    rfl

theorem splitOnSlash_joinSlash (st : List (List Char))
    (hst : st ≠ []) (hns : ∀ x ∈ st, '/' ∉ x) :
    splitOnSlash (joinSlash st) = st := by
  induction st with
  | nil => exact absurd rfl hst
  | cons x xs ih =>
    cases xs with
    | nil => exact splitOnSlash_no_slash_eq x (hns x (by simp))
    | cons y ys =>
      have hj : joinSlash (x :: y :: ys) = x ++ '/' :: joinSlash (y :: ys) := rfl
      rw [hj, splitOnSlash_append_slash x _ (hns x (by simp)),
        ih (by simp) (fun z hz => hns z (List.mem_cons_of_mem x hz))]

theorem normStep_clean (acc : List (List Char)) (seg : List Char)
    (hacc : ∀ x ∈ acc, cleanSeg x) (hseg : '/' ∉ seg) :
    ∀ x ∈ normStep acc seg, cleanSeg x := by
  intro x hx
  by_cases h1 : seg = [] ∨ seg = ['.']
  · simp only [normStep, if_pos h1] at hx
    exact hacc x hx
  · by_cases h2 : seg = ['.', '.']
    · simp only [normStep, if_neg h1, if_pos h2] at hx
      exact hacc x ((List.dropLast_sublist acc).subset hx)
    · simp only [normStep, if_neg h1, if_neg h2, List.mem_append,
        List.mem_singleton] at hx
      rcases hx with hx | rfl
      · exact hacc x hx
      · exact ⟨fun h => h1 (Or.inl h), fun h => h1 (Or.inr h), h2, hseg⟩

theorem normStack_clean (segs : List (List Char)) (acc : List (List Char))
    (hsegs : ∀ l ∈ segs, '/' ∉ l) (hacc : ∀ x ∈ acc, cleanSeg x) :
    ∀ x ∈ List.foldl normStep acc segs, cleanSeg x := by
  induction segs generalizing acc with
  | nil => simpa using hacc
  | cons s ss ih =>
    simp only [List.foldl_cons]
    exact ih _ (fun l hl => hsegs l (List.mem_cons_of_mem s hl))
      (normStep_clean acc s hacc (hsegs s (by simp)))

theorem foldl_normStep_clean (l : List (List Char)) (acc : List (List Char))
    (hl : ∀ x ∈ l, cleanSeg x) :
    List.foldl normStep acc l = acc ++ l := by
  induction l generalizing acc with
  | nil => simp
  | cons x xs ih =>
    obtain ⟨h1, h2, h3, -⟩ := hl x (by simp)
    have hstep : normStep acc x = acc ++ [x] := by
      rw [normStep, if_neg (by tauto), if_neg h3]
    rw [List.foldl_cons, hstep, ih _ (fun y hy => hl y (List.mem_cons_of_mem x hy))]
    simp

theorem normalizeAbs_idem (p : List Char) :
    normalizeAbs (normalizeAbs p) = normalizeAbs p := by
  have hclean : ∀ x ∈ normStack (splitOnSlash p), cleanSeg x :=
    normStack_clean _ [] (mem_splitOnSlash_no_slash p) (by simp)
  rcases hst : normStack (splitOnSlash p) with _ | ⟨x, xs⟩
  · have hval : normalizeAbs p = '/' :: joinSlash [] := by
      unfold normalizeAbs
      rw [hst]
    rw [hval]
    rfl
  · rw [hst] at hclean
    have hval : normalizeAbs p = '/' :: joinSlash (x :: xs) := by
      unfold normalizeAbs
      rw [hst]
    rw [hval]
    have h1 : splitOnSlash ('/' :: joinSlash (x :: xs)) =
        [] :: splitOnSlash (joinSlash (x :: xs)) := by
      simp [splitOnSlash]
    have h2 : splitOnSlash (joinSlash (x :: xs)) = x :: xs :=
      splitOnSlash_joinSlash _ (by simp) (fun z hz => (hclean z hz).2.2.2)
    unfold normalizeAbs
    rw [h1, h2]
    have h3 : normStack ([] :: x :: xs) = x :: xs := by
      unfold normStack
      rw [List.foldl_cons, show normStep [] [] = [] from rfl,
        foldl_normStep_clean _ _ hclean]
      simp
    rw [h3]

theorem pathResolve2_eq_normalizeAbs (cwd base p : List Char) :
    ∃ q, pathResolve2 cwd base p = normalizeAbs q := by
  unfold pathResolve2
  split
  · exact ⟨p, rfl⟩
  split
  · exact ⟨base ++ '/' :: p, rfl⟩
  · exact ⟨cwd ++ '/' :: base ++ '/' :: p, rfl⟩

theorem isUrl_cons_slash (l : List Char) : isUrl ('/' :: l) = false := by
  simp [isUrl, show isWordChar '/' = false from by decide]

/-- On a string whose data is a normalized absolute path, `mapResolve`'s
non-URL branch returns the candidate itself. -/
theorem mapResolveCore_fixed (cwd : String) (consumer : SourceMapConsumer)
    (c : String) (q : List Char) (hq : c.data = normalizeAbs q) :
    mapResolveCore cwd consumer c = c := by
  have hurl : isUrlStr c = false := by
    unfold isUrlStr
    rw [hq]
    exact isUrl_cons_slash _
  have habs : isAbsolutePath c.data = true := by rw [hq]; rfl
  unfold mapResolveCore
  rw [if_neg (by simp [hurl])]
  show pathResolve2S cwd _ c = c
  unfold pathResolve2S pathResolve2
  rw [if_pos habs, hq, normalizeAbs_idem, ← hq]

/-- C8: `mapResolve` is idempotent.  URLs pass through unchanged, and an
already-resolved absolute path — an output of the resolver — is returned
as-is, so a second application returns the first result unchanged. -/
theorem mapResolve_idempotent (cwd : String) (inp : Input) (c : String)
    (h : isUrlStr c = true ∨
      ∃ cwd0 base f : String, c.data = pathResolve2 cwd0.data base.data f.data) :
    (isUrlStr c = true → Input.mapResolve cwd inp c = some c) ∧
    (∀ r, Input.mapResolve cwd inp c = some r →
      Input.mapResolve cwd inp r = some r ∧ r = c) := by
  constructor
  · intro hurl
    simp [Input.mapResolve, hurl]
  · intro r hr
    rcases h with hurl | ⟨cwd0, base, f, hc⟩
    · have h1 : Input.mapResolve cwd inp c = some c := by
        simp [Input.mapResolve, hurl]
      have : r = c := by
        rw [h1] at hr
        exact (Option.some.injEq _ _ ▸ hr).symm
      subst this
      exact ⟨h1, rfl⟩
    · obtain ⟨q, hq⟩ := pathResolve2_eq_normalizeAbs cwd0.data base.data f.data
      rw [hq] at hc
      have hurl : isUrlStr c = false := by
        unfold isUrlStr
        rw [hc]
        exact isUrl_cons_slash _
      rcases hm : inp.map with _ | m
      · simp [Input.mapResolve, hurl, hm] at hr
      · have hcore : mapResolveCore cwd m.consumer c = c :=
          mapResolveCore_fixed cwd m.consumer c q hc
        simp [Input.mapResolve, hurl, hm, hcore] at hr
        subst hr
        refine ⟨?_, rfl⟩
        simp [Input.mapResolve, hurl, hm, hcore]

/-- Witness for `mapResolve_idempotent`: `"/a/b"` is an output of the
resolver and is returned unchanged by a second application. -/
theorem mapResolve_idempotent_witness :
    Input.mapResolve "/" wInput "/a/b" = some "/a/b" ∧ ("/a/b" : String) = "/a/b" :=
  (mapResolve_idempotent "/" wInput "/a/b"
      (Or.inr ⟨"/", ".", "/a/b", by decide⟩)).2 "/a/b" (by decide)

/-! ## Synthetic-id lemmas -/

theorem digitChar_inj (a b : Nat) (ha : a < 10) (hb : b < 10)
    (h : Nat.digitChar a = Nat.digitChar b) : a = b := by
  interval_cases a <;> interval_cases b <;> revert h <;> decide

theorem map_digitChar_inj (l1 l2 : List Nat) (h1 : ∀ d ∈ l1, d < 10)
    (h2 : ∀ d ∈ l2, d < 10)
    (h : l1.map Nat.digitChar = l2.map Nat.digitChar) : l1 = l2 := by
  induction l1 generalizing l2 with
  | nil =>
    cases l2 with
    | nil => rfl
    | cons b t => simp at h
  | cons a t ih =>
    cases l2 with
    | nil => simp at h
    | cons b t2 =>
      simp only [List.map_cons, List.cons.injEq] at h
      obtain ⟨hab, ht⟩ := h
      have hab' : a = b :=
        digitChar_inj a b (h1 a (by simp)) (h2 b (by simp)) hab
      subst hab'
      rw [ih t2 (fun d hd => h1 d (List.mem_cons_of_mem a hd))
        (fun d hd => h2 d (List.mem_cons_of_mem a hd)) ht]

theorem natToDigitsAux_zero (fuel : Nat) : natToDigitsAux fuel 0 = [] := by
  cases fuel <;> rfl

theorem natToDigitsAux_eq (fuel : Nat) :
    ∀ n, n ≠ 0 → n ≤ fuel →
      natToDigitsAux fuel n = ((Nat.digits 10 n).map Nat.digitChar).reverse := by
  induction fuel with
  | zero => intro n hn hf; omega
  | succ f ih =>
    intro n hn hf
    simp only [natToDigitsAux, if_neg hn]
    have hd : Nat.digits 10 n = n % 10 :: Nat.digits 10 (n / 10) :=
      Nat.digits_def' (by norm_num) (Nat.pos_of_ne_zero hn)
    rw [hd]
    simp only [List.map_cons, List.reverse_cons]
    by_cases h0 : n / 10 = 0
    · rw [h0, natToDigitsAux_zero]
      simp
    · have hlt : n / 10 < n := Nat.div_lt_self (Nat.pos_of_ne_zero hn) (by norm_num)
      rw [ih (n / 10) h0 (by omega)]

theorem digits_digitChar_ne_zero_str (n : Nat) (hn : n ≠ 0) :
    ((Nat.digits 10 n).map Nat.digitChar).reverse ≠ ['0'] := by
  intro h
  have h1 : (Nat.digits 10 n).map Nat.digitChar = ['0'] := by
    have := congrArg List.reverse h
    simpa using this
  rcases hd : Nat.digits 10 n with _ | ⟨d, ds⟩
  · rw [hd] at h1; simp at h1
  · rw [hd] at h1
    cases ds with
    | cons x xs => simp at h1
    | nil =>
      simp only [List.map_cons, List.map_nil, List.cons.injEq, and_true] at h1
      have hdlt : d < 10 :=
        Nat.digits_lt_base (by norm_num) (by rw [hd]; simp)
      have hd0 : d = 0 := digitChar_inj d 0 hdlt (by norm_num) h1
      have hofd := Nat.ofDigits_digits 10 n
      rw [hd, hd0] at hofd
      simp [Nat.ofDigits] at hofd
      exact hn hofd.symm

theorem jsNatToString_inj (m n : Nat)
    (h : jsNatToString m = jsNatToString n) : m = n := by
  have h' : (jsNatToString m).data = (jsNatToString n).data := by rw [h]
  unfold jsNatToString at h'
  simp only at h'
  rw [show ∀ k : Nat, (if k = 0 then ['0'] else natToDigitsAux k k) =
      (if k = 0 then ['0'] else ((Nat.digits 10 k).map Nat.digitChar).reverse) from
    fun k => by
      by_cases hk : k = 0
      · simp [hk]
      · rw [if_neg hk, if_neg hk, natToDigitsAux_eq k k hk le_rfl],
    show ∀ k : Nat, (if k = 0 then ['0'] else natToDigitsAux k k) =
      (if k = 0 then ['0'] else ((Nat.digits 10 k).map Nat.digitChar).reverse) from
    fun k => by
      by_cases hk : k = 0
      · simp [hk]
      · rw [if_neg hk, if_neg hk, natToDigitsAux_eq k k hk le_rfl]] at h'
  by_cases hm : m = 0 <;> by_cases hn : n = 0
  · rw [hm, hn]
  · rw [if_pos hm, if_neg hn] at h'
    exact absurd h'.symm (digits_digitChar_ne_zero_str n hn)
  · rw [if_neg hm, if_pos hn] at h'
    exact absurd h' (digits_digitChar_ne_zero_str m hm)
  · rw [if_neg hm, if_neg hn] at h'
    have h3 : (Nat.digits 10 m).map Nat.digitChar =
        (Nat.digits 10 n).map Nat.digitChar := by
      have := congrArg List.reverse h'
      simpa using this
    have h4 : Nat.digits 10 m = Nat.digits 10 n :=
      map_digitChar_inj _ _
        (fun d hd => Nat.digits_lt_base (by norm_num) hd)
        (fun d hd => Nat.digits_lt_base (by norm_num) hd) h3
    have := congrArg (Nat.ofDigits 10) h4
    simpa [Nat.ofDigits_digits] using this

theorem mkId_inj (m n : Nat) (h : mkId m = mkId n) : m = n := by
  unfold mkId at h
  have h' := congrArg String.data h
  simp only [String.data_append, List.append_assoc] at h'
  have h2 := List.append_cancel_left h'
  have h3 := List.append_cancel_right h2
  exact jsNatToString_inj m n (by
    apply congrArg String.mk
    exact h3)

/-! ## Constructor lemmas -/

theorem mkInput_cases (cwd css : String) (fromOpt : Option String)
    (found : Option SourceMapConsumer) (seq : Nat) :
    (linkFile cwd (resolveFrom cwd fromOpt) found = none →
      (mkInput cwd css fromOpt found seq).1.file = none ∧
        (mkInput cwd css fromOpt found seq).1.id = some (mkId (seq + 1)) ∧
        (mkInput cwd css fromOpt found seq).2 = seq + 1) ∧
    (∀ f, linkFile cwd (resolveFrom cwd fromOpt) found = some f →
      (mkInput cwd css fromOpt found seq).1.file = some f ∧
        (mkInput cwd css fromOpt found seq).1.id = none ∧
        (mkInput cwd css fromOpt found seq).2 = seq) := by
  constructor
  · intro h
    simp [mkInput, h]
  · intro f h
    simp [mkInput, h]

theorem linkFile_anon (cwd : String) (found : Option SourceMapConsumer)
    (hf : noMapFile found) : linkFile cwd none found = none := by
  cases found with
  | none => rfl
  | some c => rcases hf c rfl with h | h <;> simp [linkFile, h]

theorem mkInputs_spec (cwd : String) :
    ∀ (entries : List (String × Option SourceMapConsumer)) (seq : Nat),
      (∀ e ∈ entries, noMapFile e.2) →
      ((mkInputs cwd entries seq).1.map Input.id =
          (List.range entries.length).map (fun k => some (mkId (seq + k + 1))) ∧
        (mkInputs cwd entries seq).2 = seq + entries.length ∧
        ∀ inp ∈ (mkInputs cwd entries seq).1,
          inp.file = none ∧ inp.id ≠ none) := by
  intro entries
  induction entries with
  | nil =>
    intro seq hf
    exact ⟨rfl, rfl, by simp [mkInputs]⟩
  | cons e es ih =>
    intro seq hf
    have hlink : linkFile cwd (resolveFrom cwd none) e.2 = none :=
      linkFile_anon cwd e.2 (hf e (by simp))
    obtain ⟨hfile, hid, hseq⟩ := (mkInput_cases cwd e.1 none e.2 seq).1 hlink
    obtain ⟨ih1, ih2, ih3⟩ := ih (seq + 1) (fun x hx => hf x (List.mem_cons_of_mem e hx))
    have hunfold : mkInputs cwd (e :: es) seq =
        ((mkInput cwd e.1 none e.2 seq).1 ::
            (mkInputs cwd es ((mkInput cwd e.1 none e.2 seq).2)).1,
          (mkInputs cwd es ((mkInput cwd e.1 none e.2 seq).2)).2) := rfl
    rw [hunfold, hseq]
    refine ⟨?_, ?_, ?_⟩
    · simp only [List.map_cons, hid, ih1, List.length_cons,
        List.range_succ_eq_map, List.map_map]
      refine congrArg₂ _ (by rw [Nat.add_zero]) ?_
      apply List.map_congr_left
      intro k _
      simp only [Function.comp_apply]
      have : seq + 1 + k + 1 = seq + (k + 1) + 1 := by omega
      rw [this]
    · simp only [ih2, List.length_cons]
      omega
    · intro inp hinp
      rcases List.mem_cons.mp hinp with rfl | hinp
      · exact ⟨hfile, by rw [hid]; exact Option.some_ne_none _⟩
      · exact ih3 inp hinp

/-- C6: constructing N Sources with no `from` option and no map-derived
file, starting from the process-start counter value 0, assigns the ids
`<input css 1>` … `<input css N>` in construction order, pairwise
distinct; moreover, for every construction whatsoever the counter is
incremented at most once, a Source whose `file` is known increments
nothing and gets no id, and no Source ever has both `file` and `id`. -/
theorem sequence_ids (cwd : String)
    (entries : List (String × Option SourceMapConsumer))
    (hf : ∀ e ∈ entries, noMapFile e.2) :
    ((mkInputs cwd entries 0).1.map Input.id =
        (List.range entries.length).map (fun k => some (mkId (k + 1))) ∧
      ((mkInputs cwd entries 0).1.map Input.id).Nodup ∧
      (mkInputs cwd entries 0).2 = entries.length ∧
      (∀ inp ∈ (mkInputs cwd entries 0).1, inp.file = none ∧ inp.id ≠ none)) ∧
    (∀ cwd2 css2 fromOpt2 found2 seq2,
      ((mkInput cwd2 css2 fromOpt2 found2 seq2).2 = seq2 ∨
        (mkInput cwd2 css2 fromOpt2 found2 seq2).2 = seq2 + 1) ∧
      ((mkInput cwd2 css2 fromOpt2 found2 seq2).1.file ≠ none →
        (mkInput cwd2 css2 fromOpt2 found2 seq2).2 = seq2 ∧
        (mkInput cwd2 css2 fromOpt2 found2 seq2).1.id = none) ∧
      ¬((mkInput cwd2 css2 fromOpt2 found2 seq2).1.file ≠ none ∧
        (mkInput cwd2 css2 fromOpt2 found2 seq2).1.id ≠ none)) := by
  obtain ⟨h1, h2, h3⟩ := mkInputs_spec cwd entries 0 hf
  constructor
  · refine ⟨?_, ?_, ?_, h3⟩
    · rw [h1]
      apply List.map_congr_left
      intro k _
      rw [Nat.zero_add]
    · rw [h1]
      refine List.Nodup.map ?_ (List.nodup_range _)
      intro a b hab
      simp only [Option.some.injEq] at hab
      have := mkId_inj _ _ hab
      omega
    · rw [h2]
      omega
  · intro cwd2 css2 fromOpt2 found2 seq2
    rcases hl : linkFile cwd2 (resolveFrom cwd2 fromOpt2) found2 with _ | f
    · obtain ⟨ha, hb, hc⟩ := (mkInput_cases cwd2 css2 fromOpt2 found2 seq2).1 hl
      exact ⟨Or.inr hc, fun hne => absurd ha hne, fun hcon => hcon.1 ha⟩
    · obtain ⟨ha, hb, hc⟩ := (mkInput_cases cwd2 css2 fromOpt2 found2 seq2).2 f hl
      refine ⟨Or.inl hc, fun _ => ⟨hc, hb⟩, fun hcon => hcon.2 ?_⟩
      rw [hb]

/-- Witness for `sequence_ids`: two anonymous constructions from counter 0
yield ids 1 and 2; a construction with a known absolute `from` leaves the
counter alone. -/
theorem sequence_ids_witness :
    (mkInputs "/" [("a", none), ("b", none)] 0).1.map Input.id =
        [some "<input css 1>", some "<input css 2>"] ∧
      (mkInputs "/" [("a", none), ("b", none)] 0).2 = 2 ∧
      (mkInput "/" "x" (some "/f.css") none 5).2 = 5 := by
  obtain ⟨⟨h1, h2, h3, h4⟩, hgen⟩ :=
    sequence_ids "/" [("a", none), ("b", none)]
      (by intro e he c hc; fin_cases he <;> simp at hc)
  refine ⟨?_, h3, ?_⟩
  · rw [h1]; decide
  · exact ((hgen "/" "x" (some "/f.css") none 5).2.1 (by decide)).1

end DenoPostcss
